import Mathlib

/-
Verification of the AgentForge core: agent scheduling loop and the four task
state machines (price threshold, arbitrage spread, sentiment shift, contract
event scan), shallowly embedded from the Python sources in src/agentforge.
Decimal/float values are modelled as exact rationals; provider calls are
modelled as inputs (`none` = the call raised).  A `logger.warning` threshold
message is modelled as an alert outcome, `logger.error` in an exception
handler as an error outcome, and plain runs as no-signal, matching the
spec's PollOutcome vocabulary.
-/

namespace AgentForge

/-! ## PriceTrackingTask (src/agentforge/tasks/price_tracking.py)

`execute` fetches the current price (may raise), logs a percent-change note
(dividing by the stored last price, which raises if that price is 0), stores
the current price, then compares it against the threshold with a strict
inequality in the configured direction.  All exceptions are caught at the end
of `execute`. -/

inductive PriceOutcome where
  | error
  | noSignal
  | alert
  deriving DecidableEq, Repr

inductive Direction where
  | above
  | below
  deriving DecidableEq, Repr

/-- One poll of `PriceTrackingTask.execute`.  `last` is `self.last_price`,
`fetch` is the result of `self._get_token_price()` (`none` = the provider
raised).  Returns the new `last_price` and the poll outcome.  The
`last = some 0` branch models the `ZeroDivisionError` raised while computing
`pct_change`, which the outer handler catches before `last_price` is
updated. -/
def priceExecute (threshold : ℚ) (dir : Direction) (last : Option ℚ)
    (fetch : Option ℚ) : Option ℚ × PriceOutcome :=
  match fetch with
  | none => (last, .error)
  | some current =>
    if last = some 0 then
      (last, .error)
    else
      let alertCondition : Bool :=
        match dir with
        | .above => decide (threshold < current)
        | .below => decide (current < threshold)
      (some current, if alertCondition then .alert else .noSignal)

/-- A sequence of polls of one `PriceTrackingTask`, threading `last_price`. -/
def pricePolls (threshold : ℚ) (dir : Direction) :
    Option ℚ → List (Option ℚ) → Option ℚ × List PriceOutcome
  | last, [] => (last, [])
  | last, f :: fs =>
    let r := priceExecute threshold dir last f
    let rest := pricePolls threshold dir r.1 fs
    (rest.1, r.2 :: rest.2)

/-! ## ArbitrageTask (src/agentforge/tasks/arbitrage.py)

`execute` fetches the Uniswap and Sushiswap prices (either may raise), then
computes `diff_percentage = |uni - sushi| / ((uni + sushi) / 2) * 100` and
fires a warning (alert) when `diff_percentage >= min_profit_threshold`,
naming the cheaper venue as the buy side (`Uniswap` on a tie).  The task
keeps no state.  All exceptions are caught at the end of `execute`. -/

inductive ArbOutcome where
  | error
  | noSignal
  | alert (buyDex sellDex : String)
  deriving DecidableEq, Repr

/-- The `diff_percentage` value as computed by `ArbitrageTask.execute`. -/
def arbDiffPct (uniPrice sushiPrice : ℚ) : ℚ :=
  |uniPrice - sushiPrice| / ((uniPrice + sushiPrice) / 2) * 100

/-- One poll of `ArbitrageTask.execute`.  `fetch` is the pair of prices from
`_get_uniswap_price` / `_get_sushiswap_price` (`none` = one of them raised).
The `uniPrice + sushiPrice = 0` branch models the division error on a zero
average price, caught by the outer handler. -/
def arbExecute (minProfitThreshold : ℚ) (fetch : Option (ℚ × ℚ)) : ArbOutcome :=
  match fetch with
  | none => .error
  | some (uniPrice, sushiPrice) =>
    if uniPrice + sushiPrice = 0 then
      .error
    else if minProfitThreshold ≤ arbDiffPct uniPrice sushiPrice then
      let buyDex := if sushiPrice < uniPrice then "Sushiswap" else "Uniswap"
      let sellDex := if buyDex = "Sushiswap" then "Uniswap" else "Sushiswap"
      .alert buyDex sellDex
    else
      .noSignal

/-- Whether an arbitrage poll emitted an alert. -/
def ArbOutcome.isAlert : ArbOutcome → Bool
  | .alert _ _ => true
  | _ => false

/-! ## SentimentAnalysisTask (src/agentforge/tasks/sentiment.py)

`execute` fetches the sentiment metrics (may raise), and when a previous
score is stored compares `sentiment_change = current - previous` against
`sentiment_threshold`, warning (alert) tagged "positive" when the change is
strictly positive and "negative" otherwise.  The stored score is updated at
the end of the `try` block, so a provider failure leaves it unchanged. -/

inductive SentOutcome where
  | error
  | noSignal
  | alertPositive (delta : ℚ)
  | alertNegative (delta : ℚ)
  deriving DecidableEq, Repr

/-- One poll of `SentimentAnalysisTask.execute`.  `last` is
`self.last_sentiment`, `fetch` the `sentiment_score` from
`TwitterClient.get_crypto_sentiment` (`none` = the call raised). -/
def sentExecute (sentimentThreshold : ℚ) (last : Option ℚ)
    (fetch : Option ℚ) : Option ℚ × SentOutcome :=
  match fetch with
  | none => (last, .error)
  | some current =>
    match last with
    | none => (some current, .noSignal)
    | some previous =>
      let delta := current - previous
      if sentimentThreshold ≤ |delta| then
        (some current, if 0 < delta then .alertPositive delta else .alertNegative delta)
      else
        (some current, .noSignal)

/-- A sequence of polls of one `SentimentAnalysisTask`, threading the stored
score. -/
def sentPolls (sentimentThreshold : ℚ) :
    Option ℚ → List (Option ℚ) → Option ℚ × List SentOutcome
  | last, [] => (last, [])
  | last, f :: fs =>
    let r := sentExecute sentimentThreshold last f
    let rest := sentPolls sentimentThreshold r.1 fs
    (rest.1, r.2 :: rest.2)

/-! ## ContractMonitorTask (src/agentforge/tasks/contract_monitor.py)

State: `last_processed_block` (0 = uninitialized) and the `processed_txs`
de-duplication set.  The Python `set` of hex transaction-hash strings is
modelled as a duplicate-free list of naturals enumerated in insertion order
(the code only ever tests membership, adds one element, and rebuilds the set
from the last 1000 elements of `list(self.processed_txs)`). -/

/-- An event returned by the installed log filter: its transaction hash, the
event signature it carries, and whether `get_transaction_receipt` for it
succeeds (`receiptOk = false` models that call raising, which aborts the
event loop inside `_process_events`; `_handle_event` itself catches all of
its own exceptions). -/
structure ScanEvent where
  txHash : Nat
  signature : String
  receiptOk : Bool
  deriving DecidableEq, Repr

/-- The fixed capacity used in `_process_events`:
`if len(self.processed_txs) > 1000`. -/
def txCapacity : Nat := 1000

/-- Eviction `self.processed_txs = set(list(self.processed_txs)[-1000:])`, executed
after an insertion made the set exceed `txCapacity`: keep the last 1000
elements of the enumeration.  Python's set enumeration order is arbitrary,
so WHICH entry the program evicts is unspecified; this model fixes the
enumeration to insertion order as a representative choice.  The only facts
of this function the program itself guarantees are order-robust: the
retained count is `min txs.length txCapacity` (`evictTxs_length`) and the
retained entries come from the set (`evictTxs_subset`); claim-bearing
theorems rely only on those two. -/
def evictTxs (txs : List Nat) : List Nat :=
  if txCapacity < txs.length then txs.drop (txs.length - txCapacity) else txs

/-- The event loop of `ContractMonitorTask._process_events`, from the state
of `self.processed_txs`.  Per event: skip it if its hash is already in the
set; otherwise fetch the receipt (a raise aborts the remaining events — the
outer `except` in `_process_events` swallows it), handle/report the event,
add the hash, and shrink the set when it exceeds `txCapacity`.  Returns the
new `processed_txs` and the reported transaction hashes in order. -/
def processEventsGo : List Nat → List ScanEvent → List Nat × List Nat
  | txs, [] => (txs, [])
  | txs, e :: rest =>
    if e.txHash ∈ txs then
      processEventsGo txs rest
    else if e.receiptOk then
      let txs' := evictTxs (txs ++ [e.txHash])
      let r := processEventsGo txs' rest
      (r.1, e.txHash :: r.2)
    else
      (txs, [])

/-- One step of the event loop recorded with the de-dup set before and after
the step and whether the event was reported. -/
structure TraceEntry where
  txsBefore : List Nat
  event : ScanEvent
  reported : Bool
  txsAfter : List Nat
  deriving DecidableEq, Repr

/-- The event loop of `_process_events` again, as the trace of its
iterations; `processEventsGo` is its final set together with the reported
hashes (`processEventsGo_eq_trace`). -/
def processEventsTrace : List Nat → List ScanEvent → List TraceEntry
  | _, [] => []
  | txs, e :: rest =>
    if e.txHash ∈ txs then
      ⟨txs, e, false, txs⟩ :: processEventsTrace txs rest
    else if e.receiptOk then
      let txs' := evictTxs (txs ++ [e.txHash])
      ⟨txs, e, true, txs'⟩ :: processEventsTrace txs' rest
    else
      [⟨txs, e, false, txs⟩]

/-- Configuration of a `ContractMonitorTask`. -/
structure CMConfig where
  eventsToMonitor : List String
  blocksToScan : Int := 100
  deriving DecidableEq, Repr

/-- The three built-in signatures `TRANSFER_EVENT`, `APPROVAL_EVENT`,
`SWAP_EVENT` of contract_monitor.py. -/
def builtinEventSignatures : List String :=
  ["Transfer(address,address,uint256)",
   "Approval(address,address,uint256)",
   "Swap(address,uint256,uint256,uint256,uint256,address)"]

/-- The `self.monitored_events` value, computed once in `__init__` as the intersection
of the built-in signatures with `events_to_monitor`. -/
def monitoredEvents (cfg : CMConfig) : List String :=
  builtinEventSignatures.filter (fun s => s ∈ cfg.eventsToMonitor)

/-- Mutable state of a `ContractMonitorTask`. -/
structure CMState where
  lastProcessedBlock : Int
  processedTxs : List Nat
  deriving DecidableEq, Repr

/-- Initial state set in `__init__`: block 0 (= uninitialized), empty set. -/
def cmInit : CMState := ⟨0, []⟩

/-- What one poll observes from the chain: the current block height
(`w3.eth.block_number`) and the entries of the installed log filter (`none` =
creating the filter or `get_all_entries` raised, which the handler inside
`_process_events` swallows). -/
structure CMPollInput where
  height : Int
  events : Option (List ScanEvent)
  deriving DecidableEq, Repr

/-- One poll of `ContractMonitorTask.execute`.  `input = none` models
`w3.eth.block_number` raising (caught by the outer handler, state
untouched).  Otherwise: initialize `last_processed_block` to `height - 1` on
first run, clamp the scan start to `height - blocks_to_scan`, return early
when there is no new block, else run `_process_events` (whose internal
failures never propagate) and set `last_processed_block = height`
unconditionally.  Returns the new state and the reported hashes. -/
def cmExecute (cfg : CMConfig) (s : CMState) (input : Option CMPollInput) :
    CMState × List Nat :=
  match input with
  | none => (s, [])
  | some inp =>
    let last0 : Int :=
      if s.lastProcessedBlock = 0 then inp.height - 1 else s.lastProcessedBlock
    let startBlock : Int := max (last0 + 1) (inp.height - cfg.blocksToScan)
    if inp.height ≤ startBlock then
      ({ s with lastProcessedBlock := last0 }, [])
    else
      match inp.events with
      | none => ({ lastProcessedBlock := inp.height, processedTxs := s.processedTxs }, [])
      | some evs =>
        let r := processEventsGo s.processedTxs evs
        ({ lastProcessedBlock := inp.height, processedTxs := r.1 }, r.2)

/-- Whether a poll actually scans, i.e. `_process_events` is invoked:
the computed start block is strictly below the fetched height. -/
def cmScans (cfg : CMConfig) (s : CMState) (inp : CMPollInput) : Prop :=
  let last0 : Int :=
    if s.lastProcessedBlock = 0 then inp.height - 1 else s.lastProcessedBlock
  max (last0 + 1) (inp.height - cfg.blocksToScan) < inp.height

instance (cfg : CMConfig) (s : CMState) (inp : CMPollInput) :
    Decidable (cmScans cfg s inp) := by
  unfold cmScans; infer_instance

/-- A sequence of polls of one `ContractMonitorTask`, threading the state. -/
def cmPolls (cfg : CMConfig) : CMState → List (Option CMPollInput) → CMState
  | s, [] => s
  | s, i :: is => cmPolls cfg (cmExecute cfg s i).1 is

/-! ## Agent (src/agentforge/core/agent.py)

`_run_loop` runs `while self._running`: for each task in `self.tasks`, in
list order, `task.execute()` inside `try/except Exception` (a raise is
logged as an error and the loop continues with the next task), then sleeps.
`stop()` clears `_running` and joins the worker thread, so it returns only
once the loop has observed the cleared flag and exited. -/

/-- The generic outcome of one task poll as the agent loop observes it. -/
inductive Outcome where
  | noSignal
  | alert (message : String)
  | error (detail : String)
  deriving DecidableEq, Repr

/-- What one `task.execute()` call does inside the loop body: either it
completes with an outcome, or it raises an exception out of `execute`. -/
inductive TaskResult where
  | completes (o : Outcome)
  | raises (msg : String)
  deriving DecidableEq, Repr

/-- The `try task.execute() / except Exception: logger.error(...)` body of
`_run_loop`: a raised exception is converted to an error outcome. -/
def observeTask : TaskResult → Outcome
  | .completes o => o
  | .raises msg => .error msg

/-- One full pass of `_run_loop` over the agent's ordered task list. -/
def runPass (tasks : List TaskResult) : List Outcome :=
  tasks.map observeTask

/-- The scheduling loop across passes: each `while` iteration performs one
full pass; the list of passes is the prefix of iterations executed before
`_running` is observed false. -/
def runLoop (passes : List (List TaskResult)) : List (List Outcome) :=
  passes.map runPass

/-- The agent's worker thread handle, abstracted to whether the scheduling
loop it runs is still executing. -/
inductive ThreadStatus where
  | looping
  | finished
  deriving DecidableEq, Repr

/-- Lifecycle state of an `Agent`: the `_running` flag and the `_thread`
handle (`none` until `start()` first spawns it). -/
structure AgentState where
  running : Bool
  thread : Option ThreadStatus
  deriving DecidableEq, Repr

/-- State after `Agent.__init__`: not running, no worker thread. -/
def agentInit : AgentState := ⟨false, none⟩

/-- Model of `Agent.stop()`: set `self._running = False`; if a thread exists, join
it.  `Thread.join` blocks until the loop observes the cleared flag and
exits, so in the post-state any owned thread is finished. -/
def agentStop (s : AgentState) : AgentState :=
  { running := false, thread := s.thread.map (fun _ => .finished) }

/-! ## Helper lemmas about the de-dup set and the watermark -/

lemma evictTxs_length (txs : List Nat) :
    (evictTxs txs).length = min txs.length txCapacity := by
  rw [evictTxs]
  split <;> rename_i h <;> simp [List.length_drop] <;> omega

lemma evictTxs_subset (txs : List Nat) : evictTxs txs ⊆ txs := by
  rw [evictTxs]
  split
  · exact List.drop_subset _ _
  · exact List.Subset.refl _

lemma processEventsGo_nil (txs : List Nat) : processEventsGo txs [] = (txs, []) := rfl

lemma processEventsGo_cons (txs : List Nat) (e : ScanEvent) (rest : List ScanEvent) :
    processEventsGo txs (e :: rest) =
      if e.txHash ∈ txs then processEventsGo txs rest
      else if e.receiptOk then
        let r := processEventsGo (evictTxs (txs ++ [e.txHash])) rest
        (r.1, e.txHash :: r.2)
      else (txs, []) := rfl

lemma processEventsGo_length (evs : List ScanEvent) :
    ∀ txs : List Nat, txs.length ≤ txCapacity →
      (processEventsGo txs evs).1.length ≤ txCapacity := by
  induction evs with
  | nil => intro txs h; exact h
  | cons e rest ih =>
    intro txs h
    rw [processEventsGo_cons]
    split
    · exact ih txs h
    · split
      · exact ih _ (by rw [evictTxs_length]; exact min_le_right _ _)
      · exact h

lemma processEventsGo_txs_subset (evs : List ScanEvent) :
    ∀ txs : List Nat, ∀ x ∈ (processEventsGo txs evs).1,
      x ∈ txs ∨ x ∈ evs.map ScanEvent.txHash := by
  induction evs with
  | nil => intro txs x hx; exact Or.inl hx
  | cons e rest ih =>
    intro txs x hx
    rw [processEventsGo_cons] at hx
    split at hx
    · rcases ih txs x hx with h | h
      · exact Or.inl h
      · exact Or.inr (by simp [h])
    · split at hx
      · rcases ih _ x hx with h | h
        · rcases List.mem_append.mp (evictTxs_subset _ h) with h' | h'
          · exact Or.inl h'
          · simp at h'
            exact Or.inr (by simp [h'])
        · exact Or.inr (by simp [h])
      · exact Or.inl hx

lemma processEventsGo_complete (evs : List ScanEvent) :
    ∀ txs : List Nat, (∀ e ∈ evs, e.txHash ∉ txs ∧ e.receiptOk = true) →
      (evs.map ScanEvent.txHash).Nodup →
      (processEventsGo txs evs).2 = evs.map ScanEvent.txHash := by
  induction evs with
  | nil => intro txs _ _; rfl
  | cons e rest ih =>
    intro txs hfresh hnd
    have he := hfresh e (by simp)
    rw [processEventsGo_cons, if_neg he.1, if_pos he.2]
    simp only [List.map_cons]
    rw [ih (evictTxs (txs ++ [e.txHash])) ?_ ?_]
    · intro e' he'
      have h' := hfresh e' (by simp [he'])
      refine ⟨fun hmem => ?_, h'.2⟩
      rcases List.mem_append.mp (evictTxs_subset _ hmem) with hm | hm
      · exact h'.1 hm
      · simp at hm
        have : e'.txHash ∈ rest.map ScanEvent.txHash := by
          exact List.mem_map_of_mem _ he'
        simp only [List.map_cons, List.nodup_cons] at hnd
        exact hnd.1 (hm ▸ this)
    · simp only [List.map_cons, List.nodup_cons] at hnd
      exact hnd.2

lemma processEventsGo_signature_invariant (evs : List ScanEvent) :
    ∀ (txs : List Nat) (f : ScanEvent → String),
      processEventsGo txs (evs.map fun e => { e with signature := f e }) =
        processEventsGo txs evs := by
  induction evs with
  | nil => intro txs f; rfl
  | cons e rest ih =>
    intro txs f
    simp only [List.map_cons]
    rw [processEventsGo_cons, processEventsGo_cons]
    simp only [ih _ f]

lemma processEventsGo_eq_trace (evs : List ScanEvent) :
    ∀ txs : List Nat,
      (processEventsGo txs evs).2 =
        ((processEventsTrace txs evs).filter TraceEntry.reported).map
          (fun t => t.event.txHash) := by
  induction evs with
  | nil => intro txs; rfl
  | cons e rest ih =>
    intro txs
    rw [processEventsGo_cons, processEventsTrace]
    split
    · rw [ih txs]
      simp [List.filter_cons, TraceEntry.reported]
    · split
      · dsimp only
        rw [ih]
        simp [List.filter_cons, TraceEntry.reported]
      · simp [List.filter_cons, TraceEntry.reported]

lemma processEventsTrace_reported_not_seen (evs : List ScanEvent) :
    ∀ txs : List Nat, ∀ t ∈ processEventsTrace txs evs,
      t.reported = true → t.event.txHash ∉ t.txsBefore := by
  induction evs with
  | nil => intro txs t ht; simp [processEventsTrace] at ht
  | cons e rest ih =>
    intro txs t ht hrep
    rw [processEventsTrace] at ht
    split at ht
    · rcases List.mem_cons.mp ht with h | h
      · subst h; simp at hrep
      · exact ih txs t h hrep
    · split at ht
      · rcases List.mem_cons.mp ht with h | h
        · subst h
          simpa using by assumption
        · exact ih _ t h hrep
      · rcases List.mem_cons.mp ht with h | h
        · subst h; simp at hrep
        · simp at h

lemma cmExecute_txs_length (cfg : CMConfig) (s : CMState) (input : Option CMPollInput)
    (h : s.processedTxs.length ≤ txCapacity) :
    (cmExecute cfg s input).1.processedTxs.length ≤ txCapacity := by
  cases input with
  | none => exact h
  | some inp =>
    rcases inp with ⟨height, evs⟩
    cases evs with
    | none =>
      simp only [cmExecute]
      split_ifs <;> exact h
    | some evList =>
      simp only [cmExecute]
      split_ifs <;>
        first
          | exact h
          | exact processEventsGo_length evList s.processedTxs h

lemma cmPolls_txs_length (cfg : CMConfig) (inputs : List (Option CMPollInput)) :
    ∀ s : CMState, s.processedTxs.length ≤ txCapacity →
      (cmPolls cfg s inputs).processedTxs.length ≤ txCapacity := by
  induction inputs with
  | nil => intro s h; exact h
  | cons i is ih =>
    intro s h
    exact ih _ (cmExecute_txs_length cfg s i h)

lemma cmExecute_watermark_step (cfg : CMConfig) (s : CMState) (inp : CMPollInput)
    (hs : s.lastProcessedBlock ≠ 0) (hge : -1 ≤ s.lastProcessedBlock)
    (hh : 0 ≤ inp.height) :
    s.lastProcessedBlock ≤ (cmExecute cfg s (some inp)).1.lastProcessedBlock ∧
    (cmExecute cfg s (some inp)).1.lastProcessedBlock ≠ 0 ∧
    -1 ≤ (cmExecute cfg s (some inp)).1.lastProcessedBlock := by
  rcases inp with ⟨height, evs⟩
  dsimp only at hh
  simp only [cmExecute, if_neg hs]
  split
  · exact ⟨le_refl _, hs, hge⟩
  · rename_i hlt
    have hmax : max (s.lastProcessedBlock + 1) (height - cfg.blocksToScan) < height :=
      not_le.mp hlt
    have h1 : s.lastProcessedBlock + 1 ≤
        max (s.lastProcessedBlock + 1) (height - cfg.blocksToScan) := le_max_left _ _
    have h2 : s.lastProcessedBlock + 1 < height := lt_of_le_of_lt h1 hmax
    cases evs <;> dsimp only <;> exact ⟨by omega, by omega, by omega⟩

lemma cmPolls_watermark (cfg : CMConfig) (inputs : List (Option CMPollInput)) :
    ∀ s : CMState, s.lastProcessedBlock ≠ 0 → -1 ≤ s.lastProcessedBlock →
      (∀ i ∈ inputs, ∀ p, i = some p → 0 ≤ p.height) →
      s.lastProcessedBlock ≤ (cmPolls cfg s inputs).lastProcessedBlock := by
  induction inputs with
  | nil => intro s _ _ _; exact le_refl _
  | cons i is ih =>
    intro s hs hge hh
    cases i with
    | none => exact ih s hs hge (fun i hi => hh i (by simp [hi]))
    | some p =>
      have hp : 0 ≤ p.height := hh (some p) (by simp) p rfl
      have hstep := cmExecute_watermark_step cfg s p hs hge hp
      calc s.lastProcessedBlock
          ≤ (cmExecute cfg s (some p)).1.lastProcessedBlock := hstep.1
        _ ≤ _ := ih _ hstep.2.1 hstep.2.2 (fun i hi => hh i (by simp [hi]))

/-! ## Theorems -/

/-- C6: when the provider fetch raises, a PriceThreshold poll returns the
error outcome and leaves the stored last price (whatever it held, including
`none`) unchanged. -/
theorem price_provider_failure_preserves_state (threshold : ℚ) (dir : Direction)
    (last : Option ℚ) :
    priceExecute threshold dir last none = (last, PriceOutcome.error) := rfl

/-- C7: on a successful PriceThreshold poll an alert fires exactly when the
current price is strictly above (direction above) or strictly below
(direction below) the threshold — equality never alerts — and the stored
last price becomes the current price even with no alert; the scenario
threshold 2000, direction above, prices [1900, 2001, 1999] yields
[NoSignal, Alert, NoSignal] with stored last price 1999. -/
theorem price_threshold_strict_and_updates (threshold current : ℚ)
    (dir : Direction) (last : Option ℚ) (hlast : last ≠ some 0) :
    (priceExecute threshold dir last (some current)).1 = some current ∧
    ((priceExecute threshold dir last (some current)).2 = PriceOutcome.alert ↔
      (dir = Direction.above ∧ threshold < current) ∨
      (dir = Direction.below ∧ current < threshold)) ∧
    (current = threshold →
      (priceExecute threshold dir last (some current)).2 ≠ PriceOutcome.alert) ∧
    pricePolls 2000 Direction.above none [some 1900, some 2001, some 1999] =
      (some 1999, [PriceOutcome.noSignal, PriceOutcome.alert, PriceOutcome.noSignal]) := by
  refine ⟨?_, ?_, ?_, by decide⟩
  · simp [priceExecute, hlast]
  · cases dir <;> by_cases h : threshold < current <;>
      by_cases h' : current < threshold <;>
      simp [priceExecute, hlast, h, h']
  · intro hEq
    cases dir <;> simp [priceExecute, hlast, hEq]

theorem price_threshold_strict_and_updates_witness :
    (priceExecute 2000 Direction.above none (some 2001)).1 = some 2001 ∧
    (priceExecute 2000 Direction.above none (some 2001)).2 = PriceOutcome.alert :=
  have h := price_threshold_strict_and_updates 2000 2001 Direction.above none (by simp)
  ⟨h.1, h.2.1.mpr (Or.inl ⟨rfl, by norm_num⟩)⟩

/-- C10: a SentimentShift poll with no stored score stores the current score
and emits no alert; with a stored score it alerts exactly when
`|current - previous|` reaches the threshold, tagged positive when the delta
is strictly positive and negative otherwise, and always stores the current
score; with threshold 0.3, scores 0.1 then 0.5 give NoSignal then a positive
alert with delta 0.4. -/
theorem sentiment_shift_behavior (threshold previous current : ℚ) :
    sentExecute threshold none (some current) = (some current, SentOutcome.noSignal) ∧
    (sentExecute threshold (some previous) (some current)).1 = some current ∧
    (threshold ≤ |current - previous| →
      (sentExecute threshold (some previous) (some current)).2 =
        (if 0 < current - previous then SentOutcome.alertPositive (current - previous)
         else SentOutcome.alertNegative (current - previous))) ∧
    (|current - previous| < threshold →
      (sentExecute threshold (some previous) (some current)).2 = SentOutcome.noSignal) ∧
    sentPolls (3/10) none [some (1/10), some (5/10)] =
      (some (1/2), [SentOutcome.noSignal, SentOutcome.alertPositive (2/5)]) := by
  have habs : |(5:ℚ)/10 - 1/10| = 2/5 := by
    rw [show (5:ℚ)/10 - 1/10 = 2/5 by norm_num]
    exact abs_of_nonneg (by norm_num)
  have hscn : sentPolls (3/10) none [some (1/10), some (5/10)] =
      (some (1/2), [SentOutcome.noSignal, SentOutcome.alertPositive (2/5)]) := by
    simp only [sentPolls, sentExecute]
    rw [habs, if_pos (by norm_num : (3:ℚ)/10 ≤ 2/5),
      if_pos (by norm_num : (0:ℚ) < 5/10 - 1/10)]
    norm_num
  refine ⟨rfl, ?_, ?_, ?_, hscn⟩
  · by_cases h : threshold ≤ |current - previous| <;> simp [sentExecute, h]
  · intro h
    simp [sentExecute, h]
  · intro h
    rw [sentExecute, if_neg (not_le.mpr h)]

theorem sentiment_shift_behavior_witness :
    (sentExecute (3/10) (some (1/10)) (some (1/2))).2 = SentOutcome.alertPositive (2/5) := by
  have habs : |(1:ℚ)/2 - 1/10| = 2/5 := by
    rw [show (1:ℚ)/2 - 1/10 = 2/5 by norm_num]
    exact abs_of_nonneg (by norm_num)
  have h := (sentiment_shift_behavior (3/10) (1/10) (1/2)).2.2.1
    (by rw [habs]; norm_num)
  rw [h, if_pos (by norm_num : (0:ℚ) < 1/2 - 1/10)]
  norm_num

/-- C1: the claim fails on the code at `min_profit_threshold = 0`: with the
two route prices equal (100 and 100) the computed `diff_percentage` is 0,
yet `0 >= 0` holds, so `execute` emits the arbitrage alert (buy Uniswap,
sell Sushiswap) — the claimed "no alert fires, independent of
min_profit_threshold including 0" is false. -/
theorem arb_equal_prices_counterexample :
    arbDiffPct 100 100 = 0 ∧
    (arbExecute 0 (some (100, 100))).isAlert = true := by
  have hd : arbDiffPct 100 100 = 0 := by simp [arbDiffPct]
  refine ⟨hd, ?_⟩
  have halert : arbExecute 0 (some (100, 100)) = ArbOutcome.alert "Uniswap" "Sushiswap" := by
    rw [arbExecute]
    rw [if_neg (by norm_num : ¬((100:ℚ) + 100 = 0)), if_pos (by rw [hd])]
    norm_num
  rw [halert]
  rfl

/-- C1 (amended): with equal positive route prices, `diff_percentage` is 0
and no alert fires for every strictly positive `min_profit_threshold`; but
when the threshold is 0 (or negative) the `>=` comparison makes the alert
fire, naming Uniswap as the buy side and Sushiswap as the sell side. -/
theorem arb_equal_prices_amended (minProfitThreshold price : ℚ) (hp : 0 < price) :
    arbDiffPct price price = 0 ∧
    (0 < minProfitThreshold →
      arbExecute minProfitThreshold (some (price, price)) = ArbOutcome.noSignal) ∧
    (minProfitThreshold ≤ 0 →
      arbExecute minProfitThreshold (some (price, price)) =
        ArbOutcome.alert "Uniswap" "Sushiswap") := by
  have hpp : price + price ≠ 0 := by positivity
  have hdiff : arbDiffPct price price = 0 := by
    unfold arbDiffPct
    simp
  refine ⟨hdiff, ?_, ?_⟩
  · intro h
    simp [arbExecute, hpp, hdiff, not_le.mpr h]
  · intro h
    simp [arbExecute, hpp, hdiff, h]

theorem arb_equal_prices_amended_witness :
    arbDiffPct 100 100 = 0 ∧
    arbExecute 1 (some (100, 100)) = ArbOutcome.noSignal :=
  have h := arb_equal_prices_amended 1 100 (by norm_num)
  ⟨h.1, h.2.1 (by norm_num)⟩

/-- C2: with non-negative chain heights, once `last_processed_block` is
nonzero it never decreases over any sequence of polls — including polls
whose height fetch, filter installation, or per-event receipt processing
raises — and any poll that obtains the current height and actually scans
(`cmScans`) leaves `last_processed_block` equal to that height, whatever
happened while processing individual events. -/
theorem watermark_monotone_and_advances (cfg : CMConfig) (s : CMState)
    (inputs : List (Option CMPollInput)) (inp : CMPollInput)
    (hs : s.lastProcessedBlock ≠ 0) (hge : -1 ≤ s.lastProcessedBlock)
    (hh : ∀ i ∈ inputs, ∀ p, i = some p → 0 ≤ p.height) :
    s.lastProcessedBlock ≤ (cmPolls cfg s inputs).lastProcessedBlock ∧
    (cmScans cfg s inp →
      (cmExecute cfg s (some inp)).1.lastProcessedBlock = inp.height) := by
  refine ⟨cmPolls_watermark cfg inputs s hs hge hh, ?_⟩
  intro hscan
  rw [cmScans] at hscan
  rcases inp with ⟨height, evs⟩
  dsimp only at hscan
  simp only [cmExecute]
  rw [if_neg (not_le.mpr hscan)]
  cases evs <;> rfl

theorem watermark_monotone_and_advances_witness :
    (999 : Int) ≤ (cmPolls ⟨[], 100⟩ ⟨999, []⟩ [some ⟨1010, some []⟩]).lastProcessedBlock ∧
    (cmExecute ⟨[], 100⟩ ⟨999, []⟩ (some ⟨1010, some []⟩)).1.lastProcessedBlock = 1010 := by
  have h := watermark_monotone_and_advances ⟨[], 100⟩ ⟨999, []⟩
    [some ⟨1010, some []⟩] ⟨1010, some []⟩ (by decide) (by decide)
    (by intro i hi p hp; simp at hi; rw [hi] at hp; injection hp with hp; rw [← hp]; decide)
  exact ⟨h.1, h.2 (by decide)⟩

/-- C3: the claim fails on the code: pushing one fresh transaction into a
seen-set holding 1000 hashes makes it exceed the capacity, and the slicing
`set(list(self.processed_txs)[-1000:])` leaves exactly `txCapacity = 1000`
entries — the capacity itself, not a lower watermark strictly below it. -/
theorem dedup_eviction_counterexample :
    (processEventsGo (List.range txCapacity)
      [⟨txCapacity, "Transfer(address,address,uint256)", true⟩]).1.length = txCapacity := by
  rw [processEventsGo_cons, if_neg (by simp [List.mem_range]), if_pos rfl]
  dsimp only
  rw [processEventsGo_nil, evictTxs_length]
  simp

/-- C3 (amended): when an insertion makes the seen-set exceed its capacity
(1000), the eviction retains exactly `txCapacity = 1000` entries — the
capacity itself, not a watermark strictly below it — and every retained
entry comes from the set as it stood after the insertion, so the set is
never cleared entirely; which entry is evicted is the program's arbitrary
set-enumeration choice, not guaranteed to be the oldest. -/
theorem dedup_eviction_amended (txs : List Nat) (e : ScanEvent)
    (hlen : txs.length = txCapacity) (hmem : e.txHash ∉ txs)
    (hok : e.receiptOk = true) :
    (processEventsGo txs [e]).1.length = txCapacity ∧
    ∀ x ∈ (processEventsGo txs [e]).1, x ∈ txs ++ [e.txHash] := by
  rw [processEventsGo_cons, if_neg hmem, if_pos hok]
  dsimp only
  rw [processEventsGo_nil]
  constructor
  · rw [evictTxs_length, List.length_append, hlen, List.length_singleton _]
    omega
  · intro x hx
    exact evictTxs_subset _ hx

theorem dedup_eviction_amended_witness :
    (processEventsGo (List.range txCapacity)
        [⟨2000, "Approval(address,address,uint256)", true⟩]).1.length = txCapacity :=
  (dedup_eviction_amended (List.range txCapacity)
    ⟨2000, "Approval(address,address,uint256)", true⟩
    (by simp) (by simp [List.mem_range, txCapacity]) rfl).1

/-- C4: the scan consults only the contract address and block range, never
the configured signatures: a poll's result is unchanged when
`events_to_monitor` (and hence `monitored_events`) is replaced by any other
list, the event loop is invariant under rewriting every event's signature,
and when all fetched events are fresh and their receipts resolve, every one
of them is reported regardless of its signature. -/
theorem scan_ignores_configured_signatures (cfg1 cfg2 : CMConfig) (s : CMState)
    (input : Option CMPollInput) (f : ScanEvent → String)
    (hbts : cfg1.blocksToScan = cfg2.blocksToScan) :
    cmExecute cfg1 s input = cmExecute cfg2 s input ∧
    (∀ (txs : List Nat) (evs : List ScanEvent),
      processEventsGo txs (evs.map fun e => { e with signature := f e }) =
        processEventsGo txs evs) ∧
    (∀ (txs : List Nat) (evs : List ScanEvent),
      (∀ e ∈ evs, e.txHash ∉ txs ∧ e.receiptOk = true) →
      (evs.map ScanEvent.txHash).Nodup →
      (processEventsGo txs evs).2 = evs.map ScanEvent.txHash) := by
  refine ⟨?_, fun txs evs => processEventsGo_signature_invariant evs txs f,
    fun txs evs h1 h2 => processEventsGo_complete evs txs h1 h2⟩
  cases input with
  | none => rfl
  | some inp => simp only [cmExecute, hbts]

theorem scan_ignores_configured_signatures_witness :
    cmExecute ⟨builtinEventSignatures, 100⟩ cmInit
        (some ⟨5, some [⟨1, "Swap(address,uint256,uint256,uint256,uint256,address)", true⟩]⟩) =
      cmExecute ⟨[], 100⟩ cmInit
        (some ⟨5, some [⟨1, "Swap(address,uint256,uint256,uint256,uint256,address)", true⟩]⟩) :=
  (scan_ignores_configured_signatures ⟨builtinEventSignatures, 100⟩ ⟨[], 100⟩ cmInit
    (some ⟨5, some [⟨1, "Swap(address,uint256,uint256,uint256,uint256,address)", true⟩]⟩)
    (fun _ => "") rfl).1

/-- C5: an event whose transaction hash is in the seen-set at the moment it
is examined is never reported (the trace shows every reported entry's hash
was absent from the set just before that step, and the loop's reported list
is exactly the trace's reported entries), and starting from a set within
capacity the seen-set holds at most `txCapacity = 1000` hashes at the end of
every poll of any sequence. -/
theorem dedup_never_rereports_and_bounded (cfg : CMConfig) (s : CMState)
    (inputs : List (Option CMPollInput))
    (hcap : s.processedTxs.length ≤ txCapacity) :
    (∀ (txs : List Nat) (evs : List ScanEvent),
      ∀ t ∈ processEventsTrace txs evs, t.reported = true →
        t.event.txHash ∉ t.txsBefore) ∧
    (∀ (txs : List Nat) (evs : List ScanEvent),
      (processEventsGo txs evs).2 =
        ((processEventsTrace txs evs).filter TraceEntry.reported).map
          (fun t => t.event.txHash)) ∧
    (∀ (txs : List Nat) (evs : List ScanEvent),
      txs.length ≤ txCapacity → (processEventsGo txs evs).1.length ≤ txCapacity) ∧
    (cmPolls cfg s inputs).processedTxs.length ≤ txCapacity :=
  ⟨fun txs evs => processEventsTrace_reported_not_seen evs txs,
    fun txs evs => processEventsGo_eq_trace evs txs,
    fun txs evs h => processEventsGo_length evs txs h,
    cmPolls_txs_length cfg inputs s hcap⟩

theorem dedup_never_rereports_and_bounded_witness :
    (cmPolls ⟨[], 100⟩ cmInit
      [some ⟨5, some [⟨1, "Transfer(address,address,uint256)", true⟩]⟩]).processedTxs.length ≤
      txCapacity :=
  (dedup_never_rereports_and_bounded ⟨[], 100⟩ cmInit
    [some ⟨5, some [⟨1, "Transfer(address,address,uint256)", true⟩]⟩]
    (by simp [cmInit, txCapacity])).2.2.2

/-- C8: within each pass the scheduling loop polls the tasks sequentially in
list order — pass `p` produces exactly one outcome per task, the outcome at
index `i` is the conversion of task `i`'s result — a raised exception
becomes an Error outcome and never propagates, so the tasks after a raising
task in the same pass and all later passes still produce their outcomes. -/
theorem scheduler_sequential_and_isolated (passes : List (List TaskResult))
    (p i : Nat) :
    (runLoop passes).length = passes.length ∧
    (runLoop passes)[p]?.map List.length = passes[p]?.map List.length ∧
    ((runLoop passes)[p]?.bind fun pass => pass[i]?) =
      ((passes[p]?.bind fun pass => pass[i]?).map observeTask) ∧
    (∀ msg, observeTask (TaskResult.raises msg) = Outcome.error msg) := by
  refine ⟨by simp [runLoop], ?_, ?_, fun msg => rfl⟩
  · rw [runLoop, List.getElem?_map]
    cases passes[p]? with
    | none => rfl
    | some pass => simp [runPass]
  · rw [runLoop, List.getElem?_map]
    cases passes[p]? with
    | none => rfl
    | some pass =>
      simp [runPass, List.getElem?_map]

/-- C9: `stop()` returns only once the scheduling loop has exited (after the
call the agent owns no still-looping thread), a second consecutive `stop()`
is a no-op, and `stop()` on a non-running agent (its flag cleared and its
thread absent or already exited) leaves the state exactly as it was. -/
theorem stop_joins_and_idempotent (s : AgentState) :
    (agentStop s).running = false ∧
    (agentStop s).thread ≠ some ThreadStatus.looping ∧
    agentStop (agentStop s) = agentStop s ∧
    (s.running = false → s.thread ≠ some ThreadStatus.looping → agentStop s = s) := by
  refine ⟨rfl, ?_, ?_, ?_⟩
  · cases h : s.thread with
    | none => simp [agentStop, h]
    | some t => simp [agentStop, h]
  · cases h : s.thread with
    | none => simp [agentStop, h]
    | some t => simp [agentStop, h]
  · intro hrun hth
    cases s with
    | mk running thread =>
      cases thread with
      | none => simp_all [agentStop]
      | some t =>
        cases t with
        | looping => simp at hth
        | finished => simp_all [agentStop]

theorem stop_joins_and_idempotent_witness :
    agentStop agentInit = agentInit :=
  (stop_joins_and_idempotent agentInit).2.2.2 rfl (by simp [agentInit])

end AgentForge
